/-
Verification of the redis adapter of hsinhoyeh/libkv (store/redis/redis.go
plus the watch/lock stubs) against its natural-language specification.

The Go code is shallowly embedded: the engine (a single redis instance) is an
association list from flat string keys to stored character sequences; every
adapter operation is a pure Lean function translated clause by clause from the
Go source.  Bytes are natural numbers (well-formedness: `< 256`), the Go
`uint64` version stamps are naturals (the time source produces values below
`10^9`, far from wrap-around), and fallible paths return `Except`/`Option`.
The wall clock is threaded explicitly: an operation that calls
`timeBasedVersion` receives the current nanosecond count as a parameter.
-/
import Mathlib

/-! ## Versioned value codec

`versionedValue` mirrors the Go struct of the same name.  Its `marshal`
method delegates to Go's `encoding/json`, which for this struct produces
exactly `{"Value":"<std-base64 of Value>","Version":<decimal>}` (field order
follows the struct declaration, `[]byte` is encoded as standard base64).
The embedding therefore implements that concrete byte format: standard
base64 with `=` padding for the payload and decimal digits for the version,
and `unmarshal` parses it back, returning `none` where `json.Unmarshal`
would report an error (which the Go method turns into a panic). -/

structure versionedValue where
  Value : List Nat
  Version : Nat
deriving Repr, DecidableEq

def b64Alpha : List Char :=
  "ABCDEFGHIJKLMNOPQRSTUVWXYZabcdefghijklmnopqrstuvwxyz0123456789+/".toList

def sextetChar (n : Nat) : Char := b64Alpha.getD n 'A'

def svAux : List Char → Char → Nat → Option Nat
  | [], _, _ => none
  | a :: as, c, i => if a = c then some i else svAux as c (i + 1)

def sextetVal (c : Char) : Option Nat := svAux b64Alpha c 0

def padChar : Char := '='

def b64EncodeChunks : List Nat → List Char
  | [] => []
  | [a] => [sextetChar (a / 4), sextetChar (a % 4 * 16), padChar, padChar]
  | [a, b] => [sextetChar (a / 4), sextetChar (a % 4 * 16 + b / 16),
      sextetChar (b % 16 * 4), padChar]
  | a :: b :: c :: rest =>
      sextetChar (a / 4) :: sextetChar (a % 4 * 16 + b / 16) ::
        sextetChar (b % 16 * 4 + c / 64) :: sextetChar (c % 64) ::
        b64EncodeChunks rest

def b64DecodeChunks : List Char → Option (List Nat)
  | [] => some []
  | c0 :: c1 :: c2 :: c3 :: rest =>
      match sextetVal c0, sextetVal c1 with
      | some s0, some s1 =>
        if c2 = padChar then
          if c3 = padChar ∧ rest = [] then some [s0 * 4 + s1 / 16] else none
        else
          match sextetVal c2 with
          | some s2 =>
            if c3 = padChar then
              if rest = [] then some [s0 * 4 + s1 / 16, s1 % 16 * 16 + s2 / 4]
              else none
            else
              match sextetVal c3, b64DecodeChunks rest with
              | some s3, some bs =>
                  some ((s0 * 4 + s1 / 16) :: (s1 % 16 * 16 + s2 / 4) ::
                    (s2 % 4 * 64 + s3) :: bs)
              | _, _ => none
          | none => none
      | _, _ => none
  | _ => none

def digitCh (d : Nat) : Char := Char.ofNat (48 + d)

def natDecAux : Nat → Nat → List Char
  | 0, _ => []
  | fuel + 1, n =>
      if n = 0 then [] else natDecAux fuel (n / 10) ++ [digitCh (n % 10)]

def natDecimal (n : Nat) : List Char :=
  if n = 0 then [digitCh 0] else natDecAux n n

def digitVal (c : Char) : Option Nat :=
  if 48 ≤ c.toNat ∧ c.toNat ≤ 57 then some (c.toNat - 48) else none

def parseDecAux : List Char → Nat → Option Nat
  | [], acc => some acc
  | c :: cs, acc =>
      match digitVal c with
      | none => none
      | some d => parseDecAux cs (acc * 10 + d)

def parseDec (cs : List Char) : Option Nat :=
  if cs = [] then none else parseDecAux cs 0

def quoteChar : Char := Char.ofNat 34

def closeBrace : Char := Char.ofNat 125

def jsonPre : List Char := "\x7b\"Value\":\"".toList

def jsonMidTail : List Char := ",\"Version\":".toList

def jsonMid : List Char := quoteChar :: jsonMidTail

def versionedValue.marshal (v : versionedValue) : List Char :=
  jsonPre ++ b64EncodeChunks v.Value ++ jsonMid ++ natDecimal v.Version ++
    [closeBrace]

def dropPre : List Char → List Char → Option (List Char)
  | [], s => some s
  | _ :: _, [] => none
  | c :: cs, d :: ds => if c = d then dropPre cs ds else none

def unmarshal (s : List Char) : Option versionedValue :=
  (dropPre jsonPre s).bind fun s1 =>
    (dropPre jsonMid (s1.dropWhile (fun c => c != quoteChar))).bind fun s2 =>
      if s2.dropWhile (fun c => c != closeBrace) = [closeBrace] then
        match b64DecodeChunks (s1.takeWhile (fun c => c != quoteChar)),
          parseDec (s2.takeWhile (fun c => c != closeBrace)) with
        | some v, some n => some ⟨v, n⟩
        | _, _ => none
      else none

/-! ### Codec roundtrip lemmas -/

theorem sextetVal_sextetChar : ∀ s : Nat, s < 64 → sextetVal (sextetChar s) = some s := by
  decide

theorem b64Alpha_length : b64Alpha.length = 64 := by decide

theorem sextetChar_ne_pad (n : Nat) : sextetChar n ≠ padChar := by
  by_cases h : n < 64
  · revert h
    revert n
    decide
  · unfold sextetChar
    rw [List.getD_eq_default]
    · decide
    · rw [b64Alpha_length]
      omega

theorem sextetChar_ne_quote (n : Nat) : sextetChar n ≠ quoteChar := by
  by_cases h : n < 64
  · revert h
    revert n
    decide
  · unfold sextetChar
    rw [List.getD_eq_default]
    · decide
    · rw [b64Alpha_length]
      omega

theorem sextetChar_eq_pad_iff (n : Nat) : (sextetChar n = padChar) ↔ False :=
  ⟨fun hn => sextetChar_ne_pad n hn, False.elim⟩

theorem b64_roundtrip (l : List Nat) (h : ∀ x ∈ l, x < 256) :
    b64DecodeChunks (b64EncodeChunks l) = some l := by
  induction l using b64EncodeChunks.induct with
  | case1 => rfl
  | case2 a =>
    have ha : a < 256 := h a (by simp)
    have e0 := sextetVal_sextetChar (a / 4) (by omega)
    have e1 := sextetVal_sextetChar (a % 4 * 16) (by omega)
    simp only [b64EncodeChunks, b64DecodeChunks, e0, e1, eq_self_iff_true,
      and_self, if_true, Option.some.injEq, List.cons.injEq, and_true]
    omega
  | case3 a b =>
    have ha : a < 256 := h a (by simp)
    have hb : b < 256 := h b (by simp)
    have e0 := sextetVal_sextetChar (a / 4) (by omega)
    have e1 := sextetVal_sextetChar (a % 4 * 16 + b / 16) (by omega)
    have e2 := sextetVal_sextetChar (b % 16 * 4) (by omega)
    simp only [b64EncodeChunks, b64DecodeChunks, e0, e1, e2,
      sextetChar_eq_pad_iff, if_false, eq_self_iff_true, and_self, if_true,
      Option.some.injEq, List.cons.injEq, and_true]
    omega
  | case4 a b c rest ih =>
    have ha : a < 256 := h a (by simp)
    have hb : b < 256 := h b (by simp)
    have hc : c < 256 := h c (by simp)
    have hrest : ∀ x ∈ rest, x < 256 := by
      intro x hx
      exact h x (by simp [hx])
    have e0 := sextetVal_sextetChar (a / 4) (by omega)
    have e1 := sextetVal_sextetChar (a % 4 * 16 + b / 16) (by omega)
    have e2 := sextetVal_sextetChar (b % 16 * 4 + c / 64) (by omega)
    have e3 := sextetVal_sextetChar (c % 64) (by omega)
    simp only [b64EncodeChunks, b64DecodeChunks, e0, e1, e2, e3,
      sextetChar_eq_pad_iff, if_false, ih hrest, Option.some.injEq,
      List.cons.injEq]
    refine ⟨by omega, by omega, by omega, trivial⟩

theorem digitVal_digitCh : ∀ d : Nat, d < 10 → digitVal (digitCh d) = some d := by
  decide

theorem parseDecAux_map (ds : List Nat) (acc : Nat) (h : ∀ d ∈ ds, d < 10) :
    parseDecAux (ds.map digitCh) acc =
      some (ds.foldl (fun a d => a * 10 + d) acc) := by
  induction ds generalizing acc with
  | nil => rfl
  | cons d ds ih =>
    have hd : d < 10 := h d (by simp)
    simp only [List.map_cons, parseDecAux, digitVal_digitCh d hd, List.foldl_cons]
    exact ih (acc * 10 + d) (fun x hx => h x (by simp [hx]))

theorem foldl_reverse_ofDigits (L : List Nat) (acc : Nat) :
    L.reverse.foldl (fun a d => a * 10 + d) acc =
      acc * 10 ^ L.length + Nat.ofDigits 10 L := by
  induction L generalizing acc with
  | nil => simp [Nat.ofDigits]
  | cons d L ih =>
    simp only [List.reverse_cons, List.foldl_append, List.foldl_cons,
      List.foldl_nil, ih, Nat.ofDigits_cons, List.length_cons]
    ring

theorem natDecAux_eq_digits (fuel n : Nat) (h : n ≤ fuel) :
    natDecAux fuel n = ((Nat.digits 10 n).reverse.map digitCh) := by
  induction fuel generalizing n with
  | zero =>
    have : n = 0 := by omega
    subst this
    simp [natDecAux]
  | succ fuel ih =>
    by_cases hn : n = 0
    · subst hn
      simp [natDecAux]
    · have hrec : n / 10 ≤ fuel := by omega
      rw [natDecAux, if_neg hn, ih (n / 10) hrec,
        Nat.digits_def' (by norm_num : 1 < 10) (Nat.pos_of_ne_zero hn)]
      simp

theorem parseDec_natDecimal (n : Nat) : parseDec (natDecimal n) = some n := by
  by_cases hn : n = 0
  · subst hn
    decide
  · have hd : ∀ d ∈ (Nat.digits 10 n).reverse, d < 10 := by
      intro d hd
      exact Nat.digits_lt_base (by norm_num) (List.mem_reverse.mp hd)
    have hne : Nat.digits 10 n ≠ [] := Nat.digits_ne_nil_iff_ne_zero.mpr hn
    unfold natDecimal
    rw [if_neg hn, natDecAux_eq_digits n n le_rfl]
    unfold parseDec
    rw [if_neg (by simpa using hne)]
    rw [parseDecAux_map _ 0 hd, foldl_reverse_ofDigits]
    simp [Nat.ofDigits_digits]

theorem natDecAux_digits_only (fuel n : Nat) :
    ∀ c ∈ natDecAux fuel n, ∃ d, d < 10 ∧ c = digitCh d := by
  induction fuel generalizing n with
  | zero =>
    intro c hc
    simp [natDecAux] at hc
  | succ fuel ih =>
    intro c hc
    rw [natDecAux] at hc
    by_cases hn : n = 0
    · simp [hn] at hc
    · rw [if_neg hn] at hc
      rcases List.mem_append.mp hc with h1 | h2
      · exact ih (n / 10) c h1
      · refine ⟨n % 10, by omega, ?_⟩
        simpa using h2

theorem natDecimal_digits_only (n : Nat) :
    ∀ c ∈ natDecimal n, ∃ d, d < 10 ∧ c = digitCh d := by
  unfold natDecimal
  by_cases hn : n = 0
  · rw [if_pos hn]
    intro c hc
    exact ⟨0, by omega, by simpa using hc⟩
  · rw [if_neg hn]
    exact natDecAux_digits_only n n

theorem digitCh_ne_closeBrace : ∀ d : Nat, d < 10 → digitCh d ≠ closeBrace := by
  decide

theorem b64EncodeChunks_ne_quote (l : List Nat) :
    ∀ c ∈ b64EncodeChunks l, c ≠ quoteChar := by
  induction l using b64EncodeChunks.induct with
  | case1 =>
    intro c hc
    simp [b64EncodeChunks] at hc
  | case2 a =>
    intro c hc
    simp only [b64EncodeChunks, List.mem_cons, List.mem_singleton] at hc
    rcases hc with rfl | rfl | rfl | rfl | hc
    · exact sextetChar_ne_quote _
    · exact sextetChar_ne_quote _
    · decide
    · decide
    · simp at hc
  | case3 a b =>
    intro c hc
    simp only [b64EncodeChunks, List.mem_cons, List.mem_singleton] at hc
    rcases hc with rfl | rfl | rfl | rfl | hc
    · exact sextetChar_ne_quote _
    · exact sextetChar_ne_quote _
    · exact sextetChar_ne_quote _
    · decide
    · simp at hc
  | case4 a b c rest ih =>
    intro x hx
    simp only [b64EncodeChunks, List.mem_cons] at hx
    rcases hx with rfl | rfl | rfl | rfl | hx
    · exact sextetChar_ne_quote _
    · exact sextetChar_ne_quote _
    · exact sextetChar_ne_quote _
    · exact sextetChar_ne_quote _
    · exact ih x hx

theorem dropPre_append (p s : List Char) : dropPre p (p ++ s) = some s := by
  induction p with
  | nil => rfl
  | cons c cs ih => simp [dropPre, ih]

theorem takeWhile_all_stop {p : Char → Bool} (l : List Char) (x : Char)
    (r : List Char) (hl : ∀ c ∈ l, p c = true) (hx : p x = false) :
    (l ++ x :: r).takeWhile p = l ∧ (l ++ x :: r).dropWhile p = x :: r := by
  induction l with
  | nil =>
    simp only [List.nil_append]
    rw [List.takeWhile_cons_of_neg (by simp [hx]),
      List.dropWhile_cons_of_neg (by simp [hx])]
    exact ⟨rfl, rfl⟩
  | cons c cs ih =>
    have hc : p c = true := hl c (by simp)
    have ihr := ih (fun d hd => hl d (by simp [hd]))
    simp only [List.cons_append]
    rw [List.takeWhile_cons_of_pos hc, List.dropWhile_cons_of_pos hc,
      ihr.1, ihr.2]
    exact ⟨rfl, rfl⟩

/-- Claim C5: decoding the encoded versioned envelope returns exactly the
original payload/version pair: `unmarshal (marshal ⟨v, n⟩) = some ⟨v, n⟩`
for every byte payload `v` (encoding is a pure function of the pair, hence
deterministic by construction). -/
theorem marshal_unmarshal_roundtrip (v : List Nat) (n : Nat)
    (h : ∀ b ∈ v, b < 256) :
    unmarshal (versionedValue.marshal ⟨v, n⟩) = some ⟨v, n⟩ := by
  have hb64 : ∀ c ∈ b64EncodeChunks v, (fun c => c != quoteChar) c = true := by
    intro c hc
    simpa using b64EncodeChunks_ne_quote v c hc
  have hq : (fun c => c != quoteChar) quoteChar = false := by simp
  have hsplit := takeWhile_all_stop (p := fun c => c != quoteChar)
    (b64EncodeChunks v) quoteChar
    (jsonMidTail ++ (natDecimal n ++ [closeBrace])) hb64 hq
  have hdig : ∀ c ∈ natDecimal n, (fun c => c != closeBrace) c = true := by
    intro c hc
    obtain ⟨d, hd, rfl⟩ := natDecimal_digits_only n c hc
    simpa using digitCh_ne_closeBrace d hd
  have hbr : (fun c => c != closeBrace) closeBrace = false := by simp
  have hsplit2 := takeWhile_all_stop (p := fun c => c != closeBrace)
    (natDecimal n) closeBrace [] hdig hbr
  have hshape : versionedValue.marshal ⟨v, n⟩ =
      jsonPre ++ (b64EncodeChunks v ++ quoteChar ::
        (jsonMidTail ++ (natDecimal n ++ [closeBrace]))) := by
    simp [versionedValue.marshal, jsonMid]
  rw [hshape]
  unfold unmarshal
  rw [dropPre_append, Option.some_bind]
  rw [hsplit.1, hsplit.2]
  rw [show quoteChar :: (jsonMidTail ++ (natDecimal n ++ [closeBrace])) =
      jsonMid ++ (natDecimal n ++ [closeBrace]) by simp [jsonMid]]
  rw [dropPre_append, Option.some_bind]
  rw [show natDecimal n ++ [closeBrace] =
      natDecimal n ++ closeBrace :: [] from rfl]
  rw [hsplit2.1, hsplit2.2]
  rw [if_pos rfl]
  rw [b64_roundtrip v h, parseDec_natDecimal n]

/-- Witness for C5 at a concrete payload and version. -/
theorem marshal_unmarshal_roundtrip_witness :
    (∀ b ∈ [0, 255, 16, 7], b < 256) ∧
      unmarshal (versionedValue.marshal ⟨[0, 255, 16, 7], 987654321⟩) =
        some ⟨[0, 255, 16, 7], 987654321⟩ :=
  ⟨by decide, marshal_unmarshal_roundtrip [0, 255, 16, 7] 987654321 (by decide)⟩

/-! ## Engine state and key normalizer

The redis engine is modelled as an association list from flat string keys to
stored character sequences; `eget`, `eset`, `edel` and `esetnx` are the
GET/SET/DEL/SETNX primitives the adapter invokes.  The engine model is
clockless: TTL arguments are accepted (mirroring the Go signatures) but key
expiry is outside the scope of the embedded state. -/

abbrev EngineState := List (String × List Char)

def eget : EngineState → String → Option (List Char)
  | [], _ => none
  | (k', v) :: rest, k => if k' = k then some v else eget rest k

def edel : EngineState → String → EngineState
  | [], _ => []
  | (k', v) :: rest, k =>
      if k' = k then edel rest k else (k', v) :: edel rest k

def eset (st : EngineState) (k : String) (v : List Char) : EngineState :=
  (k, v) :: edel st k

def esetnx (st : EngineState) (k : String) (v : List Char) : EngineState :=
  match eget st k with
  | some _ => st
  | none => (k, v) :: st

/-- Modelled from the spec: `store.Normalize` lives in the libkv `store`
package of this repository, which is not among the sources; per §4.2 of the
spec it is a pure mapping that collapses redundant separators, trims, and
ensures a canonical leading-separator form for the flat engine key. -/
def splitSlash : List Char → List (List Char)
  | [] => [[]]
  | c :: cs =>
      if c = '/' then [] :: splitSlash cs
      else
        match splitSlash cs with
        | [] => [[c]]
        | p :: ps => (c :: p) :: ps

def joinSlash : List (List Char) → List Char
  | [] => []
  | [p] => p
  | p :: ps => p ++ '/' :: joinSlash ps

/-- Modelled from the spec: see `splitSlash`.  `Normalize key` is
`"/" ++` the non-empty `/`-separated components of `key` re-joined. -/
def Normalize (key : String) : String :=
  ⟨'/' :: joinSlash ((splitSlash key.data).filter (fun p => !p.isEmpty))⟩

inductive StoreErr where
  | keyNotFound
  | keyModified
  | notImplemented
  | panicUnmarshal
deriving Repr, DecidableEq

structure KVPair where
  Key : String
  Value : List Nat
  LastIndex : Nat
deriving Repr, DecidableEq

deriving instance DecidableEq for Except

/-- `timeBasedVersion` in Go is `uint64(time.Now().Nanosecond())`: the
nanosecond offset inside the current second, i.e. the wall-clock nanosecond
count modulo `10^9` (it fits `uint64` without wrap-around). -/
def timeBasedVersion (now : Nat) : Nat := now % 1000000000

/-! ## Store operations (store/redis/redis.go) -/

def RGet (st : EngineState) (key : String) : Except StoreErr KVPair :=
  match eget st (Normalize key) with
  | none => .error .keyNotFound
  | some reply =>
    match unmarshal reply with
    | none => .error .panicUnmarshal
    | some vv => .ok ⟨key, vv.Value, vv.Version⟩

def RPut (st : EngineState) (key : String) (value : List Nat)
    (options : Option Nat) (now : Nat) : EngineState :=
  eset st (Normalize key) (versionedValue.marshal ⟨value, timeBasedVersion now⟩)

def RDelete (st : EngineState) (key : String) : EngineState :=
  edel st (Normalize key)

def RExists (st : EngineState) (key : String) : Bool :=
  (eget st (Normalize key)).isSome

def atomicPutWrite (st : EngineState) (key : String) (value : List Nat)
    (options : Option Nat) (now : Nat) : Except StoreErr (EngineState × KVPair) :=
  let nkey := Normalize key
  let vv : versionedValue := ⟨value, timeBasedVersion now⟩
  .ok (esetnx st nkey vv.marshal, ⟨nkey, vv.Value, vv.Version⟩)

def AtomicPutGo (st : EngineState) (key : String) (value : List Nat)
    (previous existedOne : Option KVPair) (options : Option Nat) (now : Nat) :
    Except StoreErr (EngineState × KVPair) :=
  match previous, existedOne with
  | none, some _ => .error .keyModified
  | none, none => atomicPutWrite st key value options now
  | some _, none => .error .keyModified
  | some p, some ex =>
    if ex.LastIndex ≠ p.LastIndex then .error .keyModified
    else atomicPutWrite (RDelete st key) key value options now

def AtomicPut (st : EngineState) (key : String) (value : List Nat)
    (previous : Option KVPair) (options : Option Nat) (now : Nat) :
    Except StoreErr (EngineState × KVPair) :=
  match RGet st key with
  | .error e =>
    if e = .keyNotFound then AtomicPutGo st key value previous none options now
    else .error e
  | .ok pair => AtomicPutGo st key value previous (some pair) options now

def AtomicDeleteGo (st : EngineState) (key : String)
    (previous existedOne : Option KVPair) : Except StoreErr EngineState :=
  match previous, existedOne with
  | none, some _ => .error .keyModified
  | none, none => .ok (RDelete st key)
  | some _, none => .error .keyModified
  | some p, some ex =>
    if ex.LastIndex ≠ p.LastIndex then .error .keyModified
    else .ok (RDelete st key)

def AtomicDelete (st : EngineState) (key : String) (previous : Option KVPair) :
    Except StoreErr EngineState :=
  match RGet st key with
  | .error e =>
    if e = .keyNotFound then AtomicDeleteGo st key previous none
    else .error e
  | .ok pair => AtomicDeleteGo st key previous (some pair)

/-! ## Watch / WatchTree / NewLock stubs (the unnamed redis source file)

The Go stubs take no state and mutate none; state is threaded explicitly so
that "no side effect" is part of the returned value. -/

def RWatch (st : EngineState) (key : String) :
    EngineState × Option Unit × StoreErr := (st, none, .notImplemented)

def RWatchTree (st : EngineState) (directory : String) :
    EngineState × Option Unit × StoreErr := (st, none, .notImplemented)

def RNewLock (st : EngineState) (key : String) (options : Option Nat) :
    EngineState × Option Unit × StoreErr := (st, none, .notImplemented)

/-! ## Constructor New -/

inductive NewOutcome where
  | store (endpoint : String)
  | errMultipleEndpoints
  | errTLSUnsupported
  | panicIndexOutOfRange
deriving Repr, DecidableEq

def RNew (endpoints : List String) (options : Option Unit) : NewOutcome :=
  if endpoints.length > 1 then .errMultipleEndpoints
  else if options.isSome then .errTLSUnsupported
  else
    match endpoints with
    | [] => .panicIndexOutOfRange
    | e :: _ => .store e

/-- Decidable well-formedness of the slot stored under flat key `nk`:
either absent, or a character sequence that `unmarshal` accepts (every value
the adapter itself writes satisfies this). -/
def decOk (st : EngineState) (nk : String) : Bool :=
  match eget st nk with
  | none => true
  | some s => (unmarshal s).isSome

/-! ## Engine lemmas -/

theorem eget_eset_self (st : EngineState) (k : String) (v : List Char) :
    eget (eset st k v) k = some v := by
  simp [eset, eget]

theorem eget_edel (st : EngineState) (k k' : String) :
    eget (edel st k) k' = if k = k' then none else eget st k' := by
  induction st with
  | nil => simp [edel, eget, ite_self]
  | cons p rest ih =>
    obtain ⟨k0, v0⟩ := p
    by_cases h0 : k0 = k <;> by_cases h1 : k0 = k' <;> by_cases h2 : k = k' <;>
      simp_all [edel, eget]

/-! ## Claim theorems: Put/Get, stubs, constructor -/

/-- Claim C6: after `Put(k, v, nil)` at wall-clock instant `now`, `Get(k)`
returns the pair `{k, v, someVersion}` with no error — the `Key` field is the
caller's original key and the `Value` field is `v`; and `Get` on a key whose
normalized form has no stored value fails with `KeyNotFound`. -/
theorem put_get_roundtrip (st : EngineState) (k : String) (v : List Nat)
    (now : Nat) (hv : ∀ b ∈ v, b < 256)
    (st2 : EngineState) (k2 : String) (h2 : eget st2 (Normalize k2) = none) :
    RGet (RPut st k v none now) k = .ok ⟨k, v, timeBasedVersion now⟩ ∧
      RGet st2 k2 = .error .keyNotFound := by
  constructor
  · simp only [RGet, RPut, eget_eset_self,
      marshal_unmarshal_roundtrip v (timeBasedVersion now) hv]
  · unfold RGet
    rw [h2]

/-- Witness for C6 at a concrete state, key, value and instant. -/
theorem put_get_roundtrip_witness :
    (∀ b ∈ [7, 8], b < 256) ∧ eget [] (Normalize "b") = none ∧
      (RGet (RPut [] "a" [7, 8] none 42) "a" =
          .ok ⟨"a", [7, 8], timeBasedVersion 42⟩ ∧
        RGet ([] : EngineState) "b" = .error .keyNotFound) :=
  ⟨by decide, by decide,
    put_get_roundtrip [] "a" [7, 8] 42 (by decide) [] "b" (by decide)⟩

/-- Claim C9: Watch, WatchTree and NewLock immediately return the fixed
NotImplemented error with a nil result, for every input and state, leaving
the engine state untouched (the embedded functions are total, so they cannot
block, and they invoke no engine primitive). -/
theorem watch_stubs_notImplemented (st : EngineState) (k d l : String)
    (lo : Option Nat) :
    RWatch st k = (st, none, .notImplemented) ∧
      RWatchTree st d = (st, none, .notImplemented) ∧
      RNewLock st l lo = (st, none, .notImplemented) :=
  ⟨rfl, rfl, rfl⟩

/-- Counterexample to claim C10 as stated: with two endpoints and a non-nil
options value, `New` returns `ErrMultipleEndpointsUnsupported`, not
`ErrTLSUnsupported`, because the endpoint-count guard runs first — so
"ErrTLSUnsupported whenever options is non-nil" fails. -/
theorem new_tls_not_whenever :
    RNew ["h1:6379", "h2:6379"] (some ()) = .errMultipleEndpoints ∧
      NewOutcome.errMultipleEndpoints ≠ NewOutcome.errTLSUnsupported :=
  ⟨rfl, by decide⟩

/-- Claim C10 as amended: `New` returns `ErrMultipleEndpointsUnsupported`
exactly when more than one endpoint is given, returns `ErrTLSUnsupported`
exactly when at most one endpoint is given and options is non-nil, and with
an empty endpoint list and nil options reaches the out-of-bounds access of
`endpoints[0]` instead of returning an error. -/
theorem new_guard_characterization (es : List String) (opts : Option Unit) :
    (RNew es opts = .errMultipleEndpoints ↔ es.length > 1) ∧
      (RNew es opts = .errTLSUnsupported ↔
        (es.length ≤ 1 ∧ opts.isSome = true)) ∧
      RNew [] none = .panicIndexOutOfRange := by
  rcases es with _ | ⟨e, rest⟩
  · rcases opts with _ | u <;> simp [RNew]
  · rcases rest with _ | ⟨e2, rest2⟩
    · rcases opts with _ | u <;> simp [RNew]
    · rcases opts with _ | u <;> simp [RNew]

/-! ## AtomicPut / AtomicDelete lemmas -/

theorem RGet_ok_key (st : EngineState) (key : String) (q : KVPair)
    (h : RGet st key = .ok q) : q.Key = key := by
  unfold RGet at h
  cases hg : eget st (Normalize key) with
  | none => simp [hg] at h
  | some reply =>
    simp only [hg] at h
    cases hu : unmarshal reply with
    | none => simp [hu] at h
    | some vv =>
      simp only [hu, Except.ok.injEq] at h
      rw [← h]

theorem atomicPutWrite_ok (st : EngineState) (key : String) (value : List Nat)
    (opts : Option Nat) (now : Nat) (st' : EngineState) (p : KVPair)
    (h : atomicPutWrite st key value opts now = .ok (st', p)) :
    p = ⟨Normalize key, value, timeBasedVersion now⟩ := by
  simp only [atomicPutWrite, Except.ok.injEq, Prod.mk.injEq] at h
  exact h.2.symm

theorem AtomicPut_ok_pair (st : EngineState) (key : String) (value : List Nat)
    (prev : Option KVPair) (opts : Option Nat) (now : Nat)
    (st' : EngineState) (p : KVPair)
    (h : AtomicPut st key value prev opts now = .ok (st', p)) :
    p = ⟨Normalize key, value, timeBasedVersion now⟩ := by
  unfold AtomicPut at h
  cases hg : RGet st key with
  | error e =>
    simp only [hg] at h
    by_cases he : e = StoreErr.keyNotFound
    · rw [if_pos he] at h
      cases prev with
      | none =>
        simp only [AtomicPutGo] at h
        exact atomicPutWrite_ok _ _ _ _ _ _ _ h
      | some p0 =>
        simp only [AtomicPutGo] at h
        exact Except.noConfusion h
    · rw [if_neg he] at h
      exact Except.noConfusion h
  | ok pair =>
    simp only [hg] at h
    cases prev with
    | none =>
      simp only [AtomicPutGo] at h
      exact Except.noConfusion h
    | some p0 =>
      simp only [AtomicPutGo] at h
      by_cases hL : pair.LastIndex ≠ p0.LastIndex
      · rw [if_pos hL] at h
        exact Except.noConfusion h
      · rw [if_neg hL] at h
        exact atomicPutWrite_ok _ _ _ _ _ _ _ h

/-- Claim C8: on success, the pair returned by AtomicPut carries the
normalized flat engine key in its `Key` field, whereas `Get` returns the
caller's original key verbatim; since normalization is not the identity
(e.g. on "a"), the two read-back paths disagree on the `Key` field for the
same logical key. -/
theorem atomicPut_get_key_disagree (st : EngineState) (key : String)
    (value : List Nat) (prev : Option KVPair) (opts : Option Nat) (now : Nat)
    (st' : EngineState) (p : KVPair)
    (h1 : AtomicPut st key value prev opts now = .ok (st', p))
    (st2 : EngineState) (key2 : String) (q : KVPair)
    (h2 : RGet st2 key2 = .ok q) :
    p.Key = Normalize key ∧ q.Key = key2 ∧ Normalize "a" ≠ "a" := by
  refine ⟨?_, RGet_ok_key st2 key2 q h2, by decide⟩
  rw [AtomicPut_ok_pair st key value prev opts now st' p h1]

/-- Witness for C8: a successful CAS create of logical key "a" returns the
flat key "/a", while a Get of the same logical key returns "a". -/
theorem atomicPut_get_key_disagree_witness :
    (AtomicPut [] "a" [9] none none 7 =
        .ok ([("/a", versionedValue.marshal ⟨[9], 7⟩)], ⟨"/a", [9], 7⟩)) ∧
      (RGet [("/a", versionedValue.marshal ⟨[9], 7⟩)] "a" =
        .ok ⟨"a", [9], 7⟩) ∧
      ((KVPair.mk "/a" [9] 7).Key = Normalize "a" ∧
        (KVPair.mk "a" [9] 7).Key = "a" ∧ Normalize "a" ≠ "a") :=
  ⟨by decide, by decide,
    atomicPut_get_key_disagree [] "a" [9] none none 7
      [("/a", versionedValue.marshal ⟨[9], 7⟩)] ⟨"/a", [9], 7⟩ (by decide)
      [("/a", versionedValue.marshal ⟨[9], 7⟩)] "a" ⟨"a", [9], 7⟩ (by decide)⟩

/-! ## Claim C3: CAS create -/

def c3Put1 : EngineState := RPut [] "a" [1] none 5

def c3Deleted : EngineState := RDelete c3Put1 "a"

/-- Counterexample to claim C3 as stated: `timeBasedVersion` is the
nanosecond offset within the current second, so two distinct wall-clock
instants (5ns and 1.000000005s) produce the same stamp 5.  After `Put` of
"a" with version 5 and a `Delete`, the CAS create `AtomicPut("a", [2], nil,
nil)` succeeds but returns version 5 — equal to a version previously stored
for "a" (first conjunct: the run; second conjunct: version 5 had been
stored for "a" before). -/
theorem atomicPut_version_collision :
    AtomicPut c3Deleted "a" [2] none none 1000000005 =
        .ok ([("/a", versionedValue.marshal ⟨[2], 5⟩)], ⟨"/a", [2], 5⟩) ∧
      RGet c3Put1 "a" = .ok ⟨"a", [1], 5⟩ :=
  ⟨by decide, by decide⟩

/-- Claim C3 as amended: `AtomicPut(k, v, nil, nil)` succeeds if and only if
`k` did not previously exist, and on success the returned pair carries the
version produced by the time-based version source at write time (such a
version is distinct from previously stored versions only when the time
source does not repeat a stamp; it can repeat, see the counterexample). -/
theorem atomicPut_create_iff_absent (st : EngineState) (k : String)
    (v : List Nat) (opts : Option Nat) (now : Nat)
    (h : decOk st (Normalize k) = true) :
    ((∃ r, AtomicPut st k v none opts now = .ok r) ↔
        eget st (Normalize k) = none) ∧
      (∀ st' p, AtomicPut st k v none opts now = .ok (st', p) →
        p.LastIndex = timeBasedVersion now) := by
  constructor
  · cases hg : eget st (Normalize k) with
    | none =>
      have hR : RGet st k = .error .keyNotFound := by
        unfold RGet
        rw [hg]
      simp only [AtomicPut, hR, AtomicPutGo, atomicPutWrite]
      exact ⟨fun _ => trivial, fun _ => ⟨_, rfl⟩⟩
    | some s =>
      simp only [decOk, hg] at h
      obtain ⟨vv, hv⟩ := Option.isSome_iff_exists.mp h
      have hR : RGet st k = .ok ⟨k, vv.Value, vv.Version⟩ := by
        simp only [RGet, hg, hv]
      simp only [AtomicPut, hR, AtomicPutGo]
      constructor
      · rintro ⟨r, hr⟩
        exact Except.noConfusion hr
      · intro heq
        simp at heq
  · intro st' p hp
    rw [AtomicPut_ok_pair st k v none opts now st' p hp]

/-- Witness for C3's amended theorem at a concrete state and instant. -/
theorem atomicPut_create_iff_absent_witness :
    decOk [] (Normalize "a") = true ∧
      (((∃ r, AtomicPut [] "a" [3] none none 11 = .ok r) ↔
          eget [] (Normalize "a") = none) ∧
        (∀ st' p, AtomicPut [] "a" [3] none none 11 = .ok (st', p) →
          p.LastIndex = timeBasedVersion 11)) :=
  ⟨by decide, atomicPut_create_iff_absent [] "a" [3] none 11 (by decide)⟩

/-! ## Claim C2: the CAS decision table -/

def curPair (st : EngineState) (key : String) : Option KVPair :=
  (RGet st key).toOption

/-- The KeyModified condition of claim C2: previous nil with the key
present, previous non-nil with the key absent, or previous non-nil with a
version differing from the currently stored version. -/
def kmCond (st : EngineState) (key : String) (previous : Option KVPair) :
    Prop :=
  match previous, curPair st key with
  | none, some _ => True
  | none, none => False
  | some _, none => True
  | some p, some c => p.LastIndex ≠ c.LastIndex

/-- Claim C2: assuming the engine slot for the key is well-formed, AtomicPut
and AtomicDelete fail with KeyModified exactly under `kmCond`, and in every
other case they proceed and report success. -/
theorem atomic_ops_keyModified_iff (st : EngineState) (key : String)
    (value : List Nat) (prev : Option KVPair) (opts : Option Nat) (now : Nat)
    (h : decOk st (Normalize key) = true) :
    ((AtomicPut st key value prev opts now = .error .keyModified) ↔
        kmCond st key prev) ∧
      ((∃ r, AtomicPut st key value prev opts now = .ok r) ↔
        ¬ kmCond st key prev) ∧
      ((AtomicDelete st key prev = .error .keyModified) ↔
        kmCond st key prev) ∧
      ((∃ st2, AtomicDelete st key prev = .ok st2) ↔
        ¬ kmCond st key prev) := by
  cases hg : eget st (Normalize key) with
  | none =>
    have hR : RGet st key = .error .keyNotFound := by
      unfold RGet
      rw [hg]
    have hc : curPair st key = none := by
      simp [curPair, hR, Except.toOption]
    cases prev with
    | none =>
      have hKn : ¬ kmCond st key none := by
        simp [kmCond, hc]
      have hAP : AtomicPut st key value none opts now =
          .ok (esetnx st (Normalize key)
              (versionedValue.marshal ⟨value, timeBasedVersion now⟩),
            ⟨Normalize key, value, timeBasedVersion now⟩) := by
        simp [AtomicPut, hR, AtomicPutGo, atomicPutWrite]
      have hAD : AtomicDelete st key none = .ok (RDelete st key) := by
        simp [AtomicDelete, hR, AtomicDeleteGo]
      rw [hAP, hAD]
      exact ⟨iff_of_false (fun hh => Except.noConfusion hh) hKn,
        iff_of_true ⟨_, rfl⟩ hKn,
        iff_of_false (fun hh => Except.noConfusion hh) hKn,
        iff_of_true ⟨_, rfl⟩ hKn⟩
    | some p0 =>
      have hK : kmCond st key (some p0) := by
        simp [kmCond, hc]
      have hAP : AtomicPut st key value (some p0) opts now =
          .error .keyModified := by
        simp [AtomicPut, hR, AtomicPutGo]
      have hAD : AtomicDelete st key (some p0) = .error .keyModified := by
        simp [AtomicDelete, hR, AtomicDeleteGo]
      rw [hAP, hAD]
      exact ⟨iff_of_true rfl hK,
        iff_of_false (fun hh => Except.noConfusion hh.choose_spec)
          (not_not_intro hK),
        iff_of_true rfl hK,
        iff_of_false (fun hh => Except.noConfusion hh.choose_spec)
          (not_not_intro hK)⟩
  | some s =>
    simp only [decOk, hg] at h
    obtain ⟨vv, hv⟩ := Option.isSome_iff_exists.mp h
    have hR : RGet st key = .ok ⟨key, vv.Value, vv.Version⟩ := by
      simp only [RGet, hg, hv]
    have hc : curPair st key = some ⟨key, vv.Value, vv.Version⟩ := by
      simp [curPair, hR, Except.toOption]
    cases prev with
    | none =>
      have hK : kmCond st key none := by
        simp [kmCond, hc]
      have hAP : AtomicPut st key value none opts now =
          .error .keyModified := by
        simp [AtomicPut, hR, AtomicPutGo]
      have hAD : AtomicDelete st key none = .error .keyModified := by
        simp [AtomicDelete, hR, AtomicDeleteGo]
      rw [hAP, hAD]
      exact ⟨iff_of_true rfl hK,
        iff_of_false (fun hh => Except.noConfusion hh.choose_spec)
          (not_not_intro hK),
        iff_of_true rfl hK,
        iff_of_false (fun hh => Except.noConfusion hh.choose_spec)
          (not_not_intro hK)⟩
    | some p0 =>
      by_cases hL : vv.Version = p0.LastIndex
      · have hKn : ¬ kmCond st key (some p0) := by
          simp only [kmCond, hc]
          exact fun hne => hne hL.symm
        have hAP : AtomicPut st key value (some p0) opts now =
            .ok (esetnx (RDelete st key) (Normalize key)
                (versionedValue.marshal ⟨value, timeBasedVersion now⟩),
              ⟨Normalize key, value, timeBasedVersion now⟩) := by
          simp [AtomicPut, hR, AtomicPutGo, atomicPutWrite, hL]
        have hAD : AtomicDelete st key (some p0) = .ok (RDelete st key) := by
          simp [AtomicDelete, hR, AtomicDeleteGo, hL]
        rw [hAP, hAD]
        exact ⟨iff_of_false (fun hh => Except.noConfusion hh) hKn,
          iff_of_true ⟨_, rfl⟩ hKn,
          iff_of_false (fun hh => Except.noConfusion hh) hKn,
          iff_of_true ⟨_, rfl⟩ hKn⟩
      · have hK : kmCond st key (some p0) := by
          simp only [kmCond, hc]
          exact fun he => hL he.symm
        have hAP : AtomicPut st key value (some p0) opts now =
            .error .keyModified := by
          simp [AtomicPut, hR, AtomicPutGo, hL]
        have hAD : AtomicDelete st key (some p0) = .error .keyModified := by
          simp [AtomicDelete, hR, AtomicDeleteGo, hL]
        rw [hAP, hAD]
        exact ⟨iff_of_true rfl hK,
          iff_of_false (fun hh => Except.noConfusion hh.choose_spec)
            (not_not_intro hK),
          iff_of_true rfl hK,
          iff_of_false (fun hh => Except.noConfusion hh.choose_spec)
            (not_not_intro hK)⟩

/-- Witness for C2 at a concrete well-formed state: key "a" holds version 5,
previous is nil (the "previous nil, key exists" row of the table). -/
theorem atomic_ops_keyModified_iff_witness :
    decOk (RPut [] "a" [1] none 5) (Normalize "a") = true ∧
      (((AtomicPut (RPut [] "a" [1] none 5) "a" [2] none none 7 =
            .error .keyModified) ↔ kmCond (RPut [] "a" [1] none 5) "a" none) ∧
        ((∃ r, AtomicPut (RPut [] "a" [1] none 5) "a" [2] none none 7 =
            .ok r) ↔ ¬ kmCond (RPut [] "a" [1] none 5) "a" none) ∧
        ((AtomicDelete (RPut [] "a" [1] none 5) "a" none =
            .error .keyModified) ↔ kmCond (RPut [] "a" [1] none 5) "a" none) ∧
        ((∃ st2, AtomicDelete (RPut [] "a" [1] none 5) "a" none = .ok st2) ↔
          ¬ kmCond (RPut [] "a" [1] none 5) "a" none)) :=
  ⟨by decide,
    atomic_ops_keyModified_iff (RPut [] "a" [1] none 5) "a" [2] none none 7
      (by decide)⟩

/-! ## Scan aggregation, multi-get, List, DeleteTree

`keysLoop`/`keysFuel` embed the `keys` helper of redis.go verbatim: one
initial `Scan(startCursor, regex, defaultCount)` call, then a loop that runs
while the returned cursor differs from the end cursor (0).  The loop body
re-invokes `Scan` with `startCursor` — exactly as the source does — not with
the cursor returned by the previous invocation.  The loop is fuelled because
its termination is precisely what is in question; `none` means the loop did
not finish within the given fuel (for any fuel). -/

def keysLoop (scan : Nat → Nat × List String) :
    Nat → Nat → List String → Option (List String)
  | 0, nextCursor, acc => if nextCursor = 0 then some acc else none
  | fuel + 1, nextCursor, acc =>
      if nextCursor = 0 then some acc
      else keysLoop scan fuel (scan 0).1 (acc ++ (scan 0).2)

def keysFuel (scan : Nat → Nat × List String) (fuel : Nat) :
    Option (Except StoreErr (List String)) :=
  match keysLoop scan fuel (scan 0).1 (scan 0).2 with
  | none => none
  | some allKeys =>
      some (if allKeys = [] then .error .keyNotFound else .ok allKeys)

def starChar : Char := '*'

def pfxOf : List Char → List Char → Bool
  | [], _ => true
  | _ :: _, [] => false
  | a :: as, b :: bs => a == b && pfxOf as bs

/-- Engine-side MATCH semantics for the only pattern shape the adapter
builds (`<flat-directory>*`): a trailing star matches any key extending the
stem; a pattern without a trailing star matches only itself. -/
def globMatch (pat k : String) : Bool :=
  match pat.data.getLast? with
  | some c => if c = starChar then pfxOf pat.data.dropLast k.data else pat == k
  | none => pat == k

def matchingKeys (st : EngineState) (pat : String) : List String :=
  (st.map Prod.fst).filter (fun k => globMatch pat k)

/-- The engine scan of the embedded single redis instance: the whole match
set is returned in one page together with the end cursor 0 (legitimate SCAN
behaviour — the count argument is only a hint). -/
def scanOnce (st : EngineState) (pat : String) : Nat → Nat × List String :=
  fun _ => (0, matchingKeys st pat)

def keys (st : EngineState) (pat : String) :
    Option (Except StoreErr (List String)) :=
  keysFuel (scanOnce st pat) 1

def mgetLoop : List String → List (Option (List Char)) →
    Except StoreErr (List KVPair)
  | [], _ => .ok []
  | _ :: _, [] => .ok []
  | k :: ks, r :: rs =>
      let sreply := match r with
        | some str => str
        | none => []
      if sreply = [] then mgetLoop ks rs
      else
        match unmarshal sreply with
        | none => .error .panicUnmarshal
        | some vv =>
            (mgetLoop ks rs).map (fun ps => ⟨k, vv.Value, vv.Version⟩ :: ps)

def mget (st : EngineState) (keyList : List String) :
    Except StoreErr (List KVPair) :=
  mgetLoop keyList (keyList.map (eget st))

def RList (st : EngineState) (directory : String) :
    Option (Except StoreErr (List KVPair)) :=
  match keys st (Normalize directory ++ "*") with
  | none => none
  | some (.error e) => some (.error e)
  | some (.ok allKeys) => some (mget st allKeys)

def RDeleteTree (st : EngineState) (directory : String) :
    Option (Except StoreErr EngineState) :=
  match keys st (Normalize directory ++ "*") with
  | none => none
  | some (.error e) => some (.error e)
  | some (.ok allKeys) => some (.ok (allKeys.foldl edel st))

/-! ## Claim C1: the scan aggregator never advances the cursor -/

/-- A perfectly legitimate paginated engine: scanning from the initial
cursor returns page ["/a/k1"] and cursor 1; scanning from cursor 1 returns
the final page ["/a/k2"] and the end cursor 0. -/
def pagedScan : Nat → Nat × List String :=
  fun c => if c = 0 then (1, ["/a/k1"]) else (0, ["/a/k2"])

/-- Modelled from the spec: the aggregation loop the spec describes resumes
each scan from the cursor returned by the previous invocation (the source's
`keys` instead rescans from the start cursor, which is the divergence
claim C1 is settled against). -/
def keysResumeLoop (scan : Nat → Nat × List String) :
    Nat → Nat → List String → Option (List String)
  | 0, nextCursor, acc => if nextCursor = 0 then some acc else none
  | fuel + 1, nextCursor, acc =>
      if nextCursor = 0 then some acc
      else keysResumeLoop scan fuel (scan nextCursor).1
        (acc ++ (scan nextCursor).2)

def keysResume (scan : Nat → Nat × List String) (fuel : Nat) :
    Option (List String) :=
  keysResumeLoop scan fuel (scan 0).1 (scan 0).2

theorem keysLoop_pagedScan_stuck (fuel : Nat) (acc : List String) :
    keysLoop pagedScan fuel 1 acc = none := by
  induction fuel generalizing acc with
  | zero => rfl
  | succ fuel ih => simp [keysLoop, pagedScan, ih]

/-- Claim C1 (code bug): on a paginated engine the source's `keys` loop
never terminates, for every fuel, because it rescans from the start cursor
instead of resuming from the returned cursor; the resuming aggregator the
spec describes terminates with the full match set on the same engine. -/
theorem keys_cursor_bug :
    (∀ fuel, keysFuel pagedScan fuel = none) ∧
      keysResume pagedScan 1 = some ["/a/k1", "/a/k2"] := by
  constructor
  · intro fuel
    unfold keysFuel
    rw [show (pagedScan 0).1 = 1 from rfl]
    rw [keysLoop_pagedScan_stuck fuel (pagedScan 0).2]
  · rfl

/-! ## Claim C4: empty prefix is an error -/

/-- Claim C4: when the prefix pattern of a directory matches zero engine
keys, the scan aggregator fails with KeyNotFound, and both List and
DeleteTree return exactly that error instead of an empty result. -/
theorem list_deleteTree_empty_notFound (st : EngineState) (dir : String)
    (h : matchingKeys st (Normalize dir ++ "*") = []) :
    keys st (Normalize dir ++ "*") = some (.error .keyNotFound) ∧
      RList st dir = some (.error .keyNotFound) ∧
      RDeleteTree st dir = some (.error .keyNotFound) := by
  have hk : keys st (Normalize dir ++ "*") = some (.error .keyNotFound) := by
    unfold keys keysFuel
    simp [scanOnce, keysLoop, h]
  refine ⟨hk, ?_, ?_⟩
  · unfold RList
    rw [hk]
  · unfold RDeleteTree
    rw [hk]

/-- Witness for C4: a state holding only "/b/x", listed/deleted under
directory "a". -/
theorem list_deleteTree_empty_notFound_witness :
    matchingKeys [("/b/x", ['v'])] (Normalize "a" ++ "*") = [] ∧
      (keys [("/b/x", ['v'])] (Normalize "a" ++ "*") =
          some (.error .keyNotFound) ∧
        RList [("/b/x", ['v'])] "a" = some (.error .keyNotFound) ∧
        RDeleteTree [("/b/x", ['v'])] "a" = some (.error .keyNotFound)) :=
  ⟨by decide,
    list_deleteTree_empty_notFound [("/b/x", ['v'])] "a" (by decide)⟩

/-! ## Claim C7: multi-get skips absent keys -/

/-- Decidable premise of C7: each requested slot is either absent, empty, or
a well-formed envelope (every envelope the adapter writes is well-formed;
a malformed one would make the Go code panic rather than skip). -/
def slotDecodes (st : EngineState) (k : String) : Bool :=
  match eget st k with
  | none => true
  | some s => s.isEmpty || (unmarshal s).isSome

theorem mgetLoop_spec (st : EngineState) (ks : List String)
    (h : ks.all (slotDecodes st) = true) :
    mgetLoop ks (ks.map (eget st)) = .ok (ks.filterMap (fun k =>
      match eget st k with
      | none => none
      | some s =>
          if s = [] then none
          else (unmarshal s).map (fun vv => ⟨k, vv.Value, vv.Version⟩))) := by
  induction ks with
  | nil => rfl
  | cons k ks ih =>
    simp only [List.all_cons, Bool.and_eq_true] at h
    have ihh := ih h.2
    cases hg : eget st k with
    | none => simp [mgetLoop, hg, ihh, List.filterMap_cons]
    | some s =>
      by_cases hs : s = []
      · simp [mgetLoop, hg, hs, ihh, List.filterMap_cons]
      · have hdec : (unmarshal s).isSome = true := by
          have h1 := h.1
          simp only [slotDecodes, hg, Bool.or_eq_true] at h1
          rcases h1 with h1 | h1
          · exact absurd (by simpa using h1) hs
          · exact h1
        obtain ⟨vv, hv⟩ := Option.isSome_iff_exists.mp hdec
        simp [mgetLoop, hg, hs, hv, ihh, List.filterMap_cons, Except.map]

/-- Claim C7: the multi-get aggregator never fails because requested keys
are absent: every absent or empty slot is silently skipped, and every
present slot is decoded and emitted keyed by the key at that position in the
request (no normalization is applied to it). -/
theorem mget_skips_absent (st : EngineState) (ks : List String)
    (h : ks.all (slotDecodes st) = true) :
    mget st ks = .ok (ks.filterMap (fun k =>
      match eget st k with
      | none => none
      | some s =>
          if s = [] then none
          else (unmarshal s).map (fun vv => ⟨k, vv.Value, vv.Version⟩))) := by
  unfold mget
  exact mgetLoop_spec st ks h

/-- Witness for C7: one stored key and one absent key; the absent key is
skipped without an error. -/
theorem mget_skips_absent_witness :
    (["/a", "/zz"].all
        (slotDecodes [("/a", versionedValue.marshal ⟨[1], 5⟩)]) = true) ∧
      mget [("/a", versionedValue.marshal ⟨[1], 5⟩)] ["/a", "/zz"] =
        .ok (["/a", "/zz"].filterMap (fun k =>
          match eget [("/a", versionedValue.marshal ⟨[1], 5⟩)] k with
          | none => none
          | some s =>
              if s = [] then none
              else (unmarshal s).map
                (fun vv => ⟨k, vv.Value, vv.Version⟩))) :=
  ⟨by decide,
    mget_skips_absent [("/a", versionedValue.marshal ⟨[1], 5⟩)]
      ["/a", "/zz"] (by decide)⟩
